import Mathlib

/-!
Verification of the gitql/gitbase query engine against its specification.

This file gives a shallow embedding of the parts of the source relevant to the
claims under scrutiny:

* `tree_entries.go` — the tree_entries virtual table: its schema, the
  filter-pushdown iterator builder, the by-hash point-lookup iterator and the
  index key-value iterator.
* `sql/plan/sort.go` — the Sort plan node: `NewSort`, the sort iterator, the
  `sorter.Less` comparison, and Go's `sort.Sort` algorithm it delegates to.
* the `command` package's `parseDirectory` directory-URI parser.
* the gitbase `Session.BblfshClient` lazy connection loop.
* a model, built from the specification, of the squash-joins rewrite
  (its implementation lives outside the provided sources).

Definitions are written to be executable so every theorem with hypotheses is
accompanied by a witness evaluated at a concrete input.
-/

/-! ## Row and schema model (sql package)

Rows of the gitbase virtual tables under scrutiny carry only text values, so a
row is embedded as a list of strings.  A column (from go-mysql-server's
`sql.Column`) keeps the fields the claims mention: name and type. -/

/-- The subset of `sql.Type` used by the embedded tables. -/
inductive SqlType where
  | text
  | int64
  deriving DecidableEq, Repr

/-- Embeds `sql.Column` with the fields relevant to the claims. -/
structure SqlColumn where
  name : String
  type : SqlType
  nullable : Bool
  source : String
  deriving DecidableEq, Repr

/-- A row of a text-only table: `sql.Row` specialized to text values. -/
abbrev TextRow := List String

/-! ## tree_entries table (tree_entries.go) -/

/-- Name of the tree entries table (`TreeEntriesTableName`). -/
def TreeEntriesTableName : String := "tree_entries"

/-- Embeds `TreeEntriesSchema` from tree_entries.go lines 18-24: the column
order is exactly the order of the Go literal. -/
def TreeEntriesSchema : List SqlColumn :=
  [ ⟨"repository_id", .text, false, TreeEntriesTableName⟩
  , ⟨"tree_entry_name", .text, false, TreeEntriesTableName⟩
  , ⟨"blob_hash", .text, false, TreeEntriesTableName⟩
  , ⟨"tree_hash", .text, false, TreeEntriesTableName⟩
  , ⟨"tree_entry_mode", .text, false, TreeEntriesTableName⟩ ]

/-- Embeds go-git's `object.TreeEntry`: entry name, file mode and the hash of
the object the entry points at (a blob hash for file entries).  Hashes are
kept as their canonical hex strings. -/
structure GitTreeEntry where
  name : String
  mode : Nat
  hash : String
  deriving DecidableEq, Repr

/-- Embeds go-git's `object.Tree`: its own hash plus the recorded entries. -/
structure GitTree where
  hash : String
  entries : List GitTreeEntry
  deriving DecidableEq, Repr

/-- Embeds the repository view used by the tree-entries iterators: an id and
the repository's tree objects. -/
structure GitRepository where
  id : String
  trees : List GitTree
  deriving DecidableEq, Repr

/-- Embeds `repo.Repo.TreeObject(hash)`: point lookup of a tree by hash, with
`none` standing for `plumbing.ErrObjectNotFound`. -/
def treeObject (repo : GitRepository) (hash : String) : Option GitTree :=
  repo.trees.find? (fun t => t.hash == hash)

/-- Embeds Go's `strconv.FormatInt(int64(mode), 8)` for the non-negative file
modes stored in tree entries. -/
def formatOctal (n : Nat) : String :=
  (Nat.toDigits 8 n).asString

/-- Embeds `treeEntryToRow` (tree_entries.go lines 264-272): the emitted row is
`(repository_id, tree_entry_name, blob_hash, tree_hash, tree_entry_mode)`,
matching the schema order. -/
def treeEntryToRow (repoID : String) (treeHash : String) (entry : GitTreeEntry) : TextRow :=
  [repoID, entry.name, entry.hash, treeHash, formatOctal entry.mode]

/-- The two iterator shapes `treeEntriesIterBuilder` can produce: the
enumerate-all `treeEntryIter` and the point-lookup `treeEntriesByHashIter`. -/
inductive TreeEntriesIterShape where
  | allTrees
  | byHash (hashes : List String)
  deriving DecidableEq, Repr

/-- Embeds `treeEntriesIterBuilder` (tree_entries.go lines 144-155).  The
`selectors` machinery is represented by the list of text values it extracts
for the `tree_hash` column (`selectors.textValues("tree_hash")`); an empty
list corresponds to `len(selectors["tree_hash"]) == 0`. -/
def treeEntriesIterBuilder (treeHashValues : List String) : TreeEntriesIterShape :=
  if treeHashValues.isEmpty then .allTrees else .byHash treeHashValues

/-- State of `treeEntriesByHashIter`: position in the hash list, the currently
loaded tree (nil between trees) and the entry cursor. -/
structure ByHashState where
  pos : Nat
  tree : Option GitTree
  cursor : Nat
  deriving DecidableEq, Repr

/-- Result of one `Next` call on a row iterator: a row or the `io.EOF`
sentinel. -/
inductive RowStep where
  | row (r : TextRow)
  | eof
  deriving DecidableEq, Repr

/-- Embeds `treeEntriesByHashIter.Next` (tree_entries.go lines 221-252): the
`for` loop either reports EOF once hashes are exhausted and no tree is loaded,
loads the tree of the next hash (skipping hashes whose tree is not found,
mirroring the `ErrObjectNotFound` `continue`), clears an exhausted tree, or
emits the row of the entry under the cursor. -/
def byHashNext (repo : GitRepository) (hashes : List String) :
    ByHashState → ByHashState × RowStep
  | ⟨pos, none, cursor⟩ =>
    if hpos : pos < hashes.length then
      match treeObject repo (hashes.get ⟨pos, hpos⟩) with
      | none => byHashNext repo hashes ⟨pos + 1, none, cursor⟩
      | some t =>
        if h0 : 0 < t.entries.length then
          (⟨pos + 1, some t, 1⟩, .row (treeEntryToRow repo.id t.hash (t.entries.get ⟨0, h0⟩)))
        else
          byHashNext repo hashes ⟨pos + 1, none, 0⟩
    else
      (⟨pos, none, cursor⟩, .eof)
  | ⟨pos, some t, cursor⟩ =>
    if hc : cursor < t.entries.length then
      (⟨pos, some t, cursor + 1⟩, .row (treeEntryToRow repo.id t.hash (t.entries.get ⟨cursor, hc⟩)))
    else
      byHashNext repo hashes ⟨pos, none, cursor⟩
  termination_by s =>
    (hashes.length - s.pos,
      match s.tree with
      | some t => t.entries.length + 1 - s.cursor + 1
      | none => 0)

/-- The full row sequence drained from `treeEntriesByHashIter` by repeated
`Next` calls until EOF, written with the same branch structure as
`byHashNext` but collecting the emitted rows. -/
def byHashRows (repo : GitRepository) (hashes : List String) :
    ByHashState → List TextRow
  | ⟨pos, none, cursor⟩ =>
    if hpos : pos < hashes.length then
      match treeObject repo (hashes.get ⟨pos, hpos⟩) with
      | none => byHashRows repo hashes ⟨pos + 1, none, cursor⟩
      | some t =>
        if h0 : 0 < t.entries.length then
          treeEntryToRow repo.id t.hash (t.entries.get ⟨0, h0⟩) ::
            byHashRows repo hashes ⟨pos + 1, some t, 1⟩
        else
          byHashRows repo hashes ⟨pos + 1, none, 0⟩
    else
      []
  | ⟨pos, some t, cursor⟩ =>
    if hc : cursor < t.entries.length then
      treeEntryToRow repo.id t.hash (t.entries.get ⟨cursor, hc⟩) ::
        byHashRows repo hashes ⟨pos, some t, cursor + 1⟩
    else
      byHashRows repo hashes ⟨pos, none, cursor⟩
  termination_by s =>
    (hashes.length - s.pos,
      match s.tree with
      | some t => t.entries.length + 1 - s.cursor + 1
      | none => 0)

/-- Rows produced by the by-hash iterator started in its initial state
(`pos = 0`, no tree loaded). -/
def treeEntriesByHashRows (repo : GitRepository) (hashes : List String) : List TextRow :=
  byHashRows repo hashes ⟨0, none, 0⟩

/-! ## tree_entries index key-value iterator (tree_entries.go lines 274-342) -/

/-- Embeds `treeEntriesIndexKey`: the locator of one tree entry. -/
structure TreeEntriesIndexKey where
  repository : String
  packfile : String
  offset : Nat
  pos : Nat
  deriving DecidableEq, Repr

/-- A decoded git object as seen by the object iterator: either a tree or an
object of some other kind (commit, blob, tag). -/
inductive GitObject where
  | tree (t : GitTree)
  | other (kind : String)
  deriving DecidableEq, Repr

/-- Embeds `encodedObject`: the object together with its repository and
packfile location. -/
structure EncodedObject where
  repositoryID : String
  packfile : String
  offset : Nat
  object : GitObject
  deriving DecidableEq, Repr

/-- One answer of `objectIter.Next`: an object, or an error (`io.EOF`
included, which the key-value iterator returns verbatim). -/
inductive ObjIterStep where
  | obj (o : EncodedObject)
  | err (e : String)
  deriving DecidableEq, Repr

/-- The object iterator is represented by the finite list of its answers;
past the end it keeps answering `io.EOF`. -/
def objIterAt (objs : List ObjIterStep) (i : Nat) : ObjIterStep :=
  match objs.get? i with
  | some s => s
  | none => .err "io.EOF"

/-- Embeds the index of a named column in a schema (first match). -/
def schemaIndexOf (schema : List SqlColumn) (name : String) : Option Nat :=
  schema.findIdx? (fun c => c.name == name)

/-- Embeds `rowIndexValues(row, columns, schema)`: the row values of the named
columns, in the requested order; `none` when a column is unknown. -/
def rowIndexValues (row : TextRow) (columns : List String) (schema : List SqlColumn) :
    Option (List String) :=
  columns.mapM (fun c => (schemaIndexOf schema c).bind (fun i => row.get? i))

/-- State of `treeEntriesKeyValueIter`: position in the object iterator, the
current object with its decoded tree (empty between trees — Go keeps `i.obj`
and `i.tree` separately, but whenever `i.tree` is non-nil it is the decoded
tree of `i.obj`), and the entry position. -/
structure KVState where
  iterPos : Nat
  cur : Option (EncodedObject × GitTree)
  pos : Nat
  deriving DecidableEq, Repr

/-- One answer of `treeEntriesKeyValueIter.Next`: a `(values, key)` pair, an
error, or the nil-pointer dereference that Go runs into when the loop reaches
`len(i.tree.Entries)` with `i.tree == nil` after a failed type assertion. -/
inductive KVStep where
  | kv (values : List String) (key : TreeEntriesIndexKey)
  | err (e : String)
  | nilTreePanic
  deriving DecidableEq, Repr

/-- Embeds `treeEntriesKeyValueIter.Next` (tree_entries.go lines 296-340).
When the fetched object is not a tree, the source constructs
`ErrInvalidObjectType.New(i.obj.Object, "*object.Tree")` but never returns or
assigns it (line 308), so the loop continues with `i.tree == nil` and the
entries check dereferences the nil tree: that continuation is the
`nilTreePanic` answer. -/
def kvNext (objs : List ObjIterStep) (columns : List String) :
    KVState → KVState × KVStep
  | ⟨ip, none, pos⟩ =>
    match hfetch : objIterAt objs ip with
    | .err e => (⟨ip + 1, none, pos⟩, .err e)
    | .obj o =>
      match o.object with
      | .tree t =>
        if h0 : 0 < t.entries.length then
          let entry := t.entries.get ⟨0, h0⟩
          let key : TreeEntriesIndexKey := ⟨o.repositoryID, o.packfile, o.offset, 0⟩
          let row := treeEntryToRow o.repositoryID t.hash entry
          match rowIndexValues row columns TreeEntriesSchema with
          | some values => (⟨ip + 1, some (o, t), 1⟩, .kv values key)
          | none => (⟨ip + 1, some (o, t), 1⟩, .err "unknown column")
        else
          kvNext objs columns ⟨ip + 1, none, 0⟩
      | .other _ => (⟨ip + 1, none, 0⟩, .nilTreePanic)
  | ⟨ip, some (o, t), pos⟩ =>
    if hp : pos < t.entries.length then
      let entry := t.entries.get ⟨pos, hp⟩
      let key : TreeEntriesIndexKey := ⟨o.repositoryID, o.packfile, o.offset, pos⟩
      let row := treeEntryToRow o.repositoryID t.hash entry
      match rowIndexValues row columns TreeEntriesSchema with
      | some values => (⟨ip, some (o, t), pos + 1⟩, .kv values key)
      | none => (⟨ip, some (o, t), pos + 1⟩, .err "unknown column")
    else
      kvNext objs columns ⟨ip, none, pos⟩
  termination_by s =>
    (objs.length + 1 - s.iterPos,
      match s.cur with
      | some (_, t) => t.entries.length + 1 - s.pos + 1
      | none => 0)
  decreasing_by
    · have hlt : ip < objs.length := by
        by_contra hge
        have hnone : objs.get? ip = none := List.get?_eq_none.mpr (Nat.le_of_not_lt hge)
        rw [objIterAt, hnone] at hfetch
        simp at hfetch
      apply Prod.Lex.left
      omega
    · apply Prod.Lex.right'
      · omega
      · omega

/-! ## Directory URI parsing (command package, `parseDirectory`) -/

/-- Embeds the `directory` struct of the command package. -/
structure Directory where
  path : String
  format : String
  bucket : Int
  rooted : Bool
  bare : Bool
  deriving DecidableEq, Repr

/-- The outcome of the URI analysis `parseDirectory` performs on `dir.Path`:
either the path does not match `^\w+:.*` (not a URI), or
`url.ParseRequestURI` failed, or it parsed into a scheme, hostname, path and
query (the query as a key to values map, one entry per distinct key, exactly
as `u.Query()` yields it). -/
inductive UrlOutcome where
  | notUri
  | failed (e : String)
  | parsed (scheme hostname path : String) (query : List (String × List String))
  deriving DecidableEq, Repr

/-- The errors `parseDirectory` can return: the `url.ParseRequestURI` error,
the `scheme not suported in directory` error, and the `ErrInvalid`
(`"invalid option"`) sentinel. -/
inductive DirError where
  | parseError (e : String)
  | schemeNotSupported (d : String)
  | invalidOption
  deriving DecidableEq, Repr

/-- Embeds Go's `strings.ToLower` for the ASCII option keys it is applied
to (written out so that it evaluates inside the kernel). -/
def asciiToLower (s : String) : String :=
  String.mk (s.data.map (fun c => if c.isUpper then Char.ofNat (c.toNat + 32) else c))

/-- Embeds Go's `strconv.Atoi` on a 64-bit platform: optional sign, decimal
digits only, and the int64 range check (out-of-range input is an error). -/
def goAtoi (s : String) : Option Int :=
  let signed : Bool × List Char :=
    match s.toList with
    | '+' :: cs => (false, cs)
    | '-' :: cs => (true, cs)
    | cs => (false, cs)
  let neg := signed.1
  let digits := signed.2
  if digits.isEmpty then none
  else if digits.all (fun c => c.isDigit) then
    let n : Nat := digits.foldl (fun acc c => acc * 10 + (c.toNat - '0'.toNat)) 0
    let v : Int := if neg then -(n : Int) else (n : Int)
    if -(2 ^ 63) ≤ v ∧ v ≤ 2 ^ 63 - 1 then some v else none
  else none

/-- Embeds the query loop of `parseDirectory` (part_003 lines 544-588): each
key is lowercased and matched against the four recognized options; a key with
other than exactly one value, an unrecognized key, or an ill-formed value
returns `ErrInvalid`.  Go ranges over the query map in unspecified order; the
list order stands in for one such order (the returned error does not depend
on it). -/
def parseDirectoryQuery (dir : Directory) :
    List (String × List String) → Directory × Option DirError
  | [] => (dir, none)
  | (k, v) :: rest =>
    match v with
    | [val] =>
      if asciiToLower k = "format" then
        if val != "siva" && val != "git" then (dir, some .invalidOption)
        else parseDirectoryQuery { dir with format := val } rest
      else if asciiToLower k = "bare" then
        if val != "true" && val != "false" then (dir, some .invalidOption)
        else parseDirectoryQuery { dir with bare := val == "true" } rest
      else if asciiToLower k = "rooted" then
        if val != "true" && val != "false" then (dir, some .invalidOption)
        else parseDirectoryQuery { dir with rooted := val == "true" } rest
      else if asciiToLower k = "bucket" then
        match goAtoi val with
        | none => (dir, some .invalidOption)
        | some num => parseDirectoryQuery { dir with bucket := num } rest
      else (dir, some .invalidOption)
    | _ => (dir, some .invalidOption)

/-- Embeds `parseDirectory` (part_003 lines 523-591).  `join` stands for
`filepath.Join(u.Hostname(), u.Path)`; the claims never constrain the joined
path, so it is kept as a parameter. -/
def parseDirectory (join : String → String → String) (dir : Directory)
    (u : UrlOutcome) : Directory × Option DirError :=
  match u with
  | .notUri => (dir, none)
  | .failed e => (dir, some (.parseError e))
  | .parsed scheme hostname path query =>
    if scheme != "file" then (dir, some (.schemeNotSupported dir.path))
    else parseDirectoryQuery { dir with path := join hostname path } query

/-! ## Session.BblfshClient connection loop (part_002 lines 66-113) -/

/-- The grpc connectivity states the loop distinguishes: `Ready` and `Idle`
succeed, `Connecting` sleeps, and every other state (`TransientFailure`,
`Shutdown`) falls to the reconnect branch. -/
inductive ConnState where
  | ready
  | idle
  | connecting
  | other
  deriving DecidableEq, Repr

/-- Observable events of the connection loop: a `bblfsh.NewClient` reconnect
and a `time.Sleep(100 * time.Millisecond)`. -/
inductive BblfshEvent where
  | reconnect
  | sleep100ms
  deriving DecidableEq, Repr

/-- The outcome of `BblfshClient`: a connected client, the
`ErrBblfshConnection` class on exhaustion, or a verbatim error from
`NewClient` / `Close`. -/
inductive BblfshResult where
  | ok
  | errBblfshConnection
  | errOther (e : String)
  deriving DecidableEq, Repr

/-- Embeds `const bblfshMaxAttempts = 10`. -/
def bblfshMaxAttempts : Nat := 10

/-- Embeds the retry loop of `Session.BblfshClient` (part_002 lines 84-112).
`getState` gives the connectivity state observed at each loop iteration,
`closeErr`/`newClientErr` the outcomes of the n-th `Close` and in-loop
`NewClient` calls.  The loop exits with `ErrBblfshConnection` once
`attempts > bblfshMaxAttempts || totalAttempts > 3*bblfshMaxAttempts`; the
`Connecting` state resets `attempts` and sleeps 100 ms; any state other than
`Ready`/`Idle`/`Connecting` closes the client and reconnects.  Both counters
are incremented at the bottom of every iteration. -/
def bblfshLoop (getState : Nat → ConnState)
    (closeErr newClientErr : Nat → Option String) :
    Nat → Nat → Nat → Nat → List BblfshEvent → BblfshResult × List BblfshEvent
  | iter, reconn, attempts, total, events =>
    if attempts > bblfshMaxAttempts ∨ total > 3 * bblfshMaxAttempts then
      (.errBblfshConnection, events)
    else
      match getState iter with
      | .ready => (.ok, events)
      | .idle => (.ok, events)
      | .connecting =>
        bblfshLoop getState closeErr newClientErr
          (iter + 1) reconn 1 (total + 1) (events ++ [.sleep100ms])
      | .other =>
        match closeErr reconn with
        | some e => (.errOther e, events)
        | none =>
          match newClientErr reconn with
          | some e => (.errOther e, events)
          | none =>
            bblfshLoop getState closeErr newClientErr
              (iter + 1) (reconn + 1) (attempts + 1) (total + 1)
              (events ++ [.reconnect])
  termination_by _ _ _ total _ => 3 * bblfshMaxAttempts + 1 - total
  decreasing_by
    · simp only [bblfshMaxAttempts] at *
      omega
    · simp only [bblfshMaxAttempts] at *
      omega

/-- Embeds `Session.BblfshClient` at first use: the lazily created client
(`s.bblfshClient == nil` ⇒ one initial `bblfsh.NewClient`, whose failure is
returned verbatim) followed by the retry loop with both counters at zero. -/
def bblfshClientFirstUse (initErr : Option String) (getState : Nat → ConnState)
    (closeErr newClientErr : Nat → Option String) : BblfshResult × List BblfshEvent :=
  match initErr with
  | some e => (.errOther e, [])
  | none => bblfshLoop getState closeErr newClientErr 0 0 0 0 []

/-! ## The Sort plan node (sql/plan/sort.go)

The gitql `sql.Type` interface is represented by its `Compare` method
(type.go is not among the provided sources): a comparison returning -1, 0 or
1.  Rows handled by Sort are generic over the value type. -/

/-- Modelled from the spec: a gitql `sql.Type` is carried as its `Compare`
function, returning -1/0/1 (comparison per field follows the field's declared
type). -/
structure GqlType (α : Type) where
  compare : α → α → Int

/-- Embeds gitql's `sql.Column`: name and type (sort.go reads only these). -/
structure GqlColumn (α : Type) where
  name : String
  type : GqlType α

/-- Embeds `SortOrder` (sort.go lines 18-23): `Ascending = 1`,
`Descending = 2`. -/
inductive SortOrder where
  | ascending
  | descending
  deriving DecidableEq, Repr

/-- Embeds `SortField` (sort.go lines 25-28). -/
structure SortField where
  column : String
  order : SortOrder
  deriving DecidableEq, Repr

/-- Embeds the fields of the `Sort` node that `NewSort` fills in (sort.go
lines 11-16): the resolved schema indexes, their types, and the original sort
fields. -/
structure SortNode (α : Type) where
  fieldIndexes : List Nat
  fieldTypes : List (GqlType α)
  sortFields : List SortField

/-- First index and type of the column with the given name, mirroring the
inner loop of `NewSort` (sort.go lines 36-42): scan in schema order, stop at
the first match. -/
def sortFieldLookup {α : Type} : List (GqlColumn α) → String → Option (Nat × GqlType α)
  | [], _ => none
  | c :: rest, colName =>
    if c.name == colName then some (0, c.type)
    else (sortFieldLookup rest colName).map (fun p => (p.1 + 1, p.2))

/-- The outer loop of `NewSort` (sort.go lines 34-47): collect one index and
type per sort field, in order; a sort field whose column is missing from the
child schema panics with `Field <col> not found in child`, embedded as the
error case. -/
def newSortCollect {α : Type} (childSchema : List (GqlColumn α)) :
    List SortField → Except String (List Nat × List (GqlType α))
  | [] => .ok ([], [])
  | sf :: rest =>
    match sortFieldLookup childSchema sf.column with
    | none => .error ("Field " ++ sf.column ++ " not found in child")
    | some (idx, ty) =>
      match newSortCollect childSchema rest with
      | .error e => .error e
      | .ok (idxs, tys) => .ok (idx :: idxs, ty :: tys)

/-- Embeds `NewSort` (sort.go lines 30-54): `.error` is the panic path. -/
def NewSort {α : Type} (sortFields : List SortField) (childSchema : List (GqlColumn α)) :
    Except String (SortNode α) :=
  match newSortCollect childSchema sortFields with
  | .error e => .error e
  | .ok (idxs, tys) => .ok ⟨idxs, tys, sortFields⟩

/-- Embeds `sorter.Less` (sort.go lines 148-160): walk the sort fields in
order and report true as soon as one field of `a` compares -1 against the
same field of `b`; every other outcome (0 or 1) just moves on to the next
field, and false is returned when no field compared -1.  Note the sorter
receives only the indexes and types: `SortField.Order` is never consulted. -/
def sorterLess {α : Type} [Inhabited α] (indexes : List Nat) (types : List (GqlType α))
    (a b : List α) : Bool :=
  (indexes.zip types).any
    (fun p => p.2.compare (a.getD p.1 default) (b.getD p.1 default) == -1)

/-! ## Go's sort.Sort (the standard library algorithm sort.go delegates to)

`computeSortedRows` calls `sort.Sort`, which Go documents as not stable.  The
algorithm below is the `sort` package implementation shipped from Go 1.6
through Go 1.18 (quicksort with a depth limit, heapsort fallback,
median-of-three/nine pivots, and a gap-6 Shell pass followed by insertion
sort on slices of at most 12 elements).  `data.Swap`/`data.Less` become pure
array operations; all indices used by the algorithm are in bounds, so the
defaulting accessors agree with Go. -/

/-- Element read `data[i]` used by the embedded sort. -/
def aget {α : Type} [Inhabited α] (arr : Array α) (i : Nat) : α :=
  arr.getD i default

/-- Embeds `data.Swap(i, j)`. -/
def arrSwap {α : Type} [Inhabited α] (arr : Array α) (i j : Nat) : Array α :=
  let vi := aget arr i
  let vj := aget arr j
  (arr.setD i vj).setD j vi

/-- Embeds the inner loop of `insertionSort`: move element `j` left while it
is less than its left neighbour and `j > a`. -/
def insertionInner {α : Type} [Inhabited α] (less : α → α → Bool) (a : Nat) :
    Array α → Nat → Array α
  | arr, j =>
    if a < j ∧ less (aget arr j) (aget arr (j - 1)) then
      insertionInner less a (arrSwap arr j (j - 1)) (j - 1)
    else arr
  termination_by arr j => j

/-- Embeds `insertionSort(data, a, b)`: for `i` from `a+1` up to `b-1`, sink
element `i` into place. -/
def insertionSortGo {α : Type} [Inhabited α] (less : α → α → Bool) (b : Nat) :
    Array α → Nat → Nat → Array α
  | arr, a, i =>
    if i < b then insertionSortGo less b (insertionInner less a arr i) a (i + 1)
    else arr
  termination_by _ _ i => b - i

/-- Embeds `siftDown(data, lo, hi, first)`. -/
def siftDownGo {α : Type} [Inhabited α] (less : α → α → Bool) (hi first : Nat) :
    Array α → Nat → Array α
  | arr, root =>
    let child := 2 * root + 1
    if hchild : child < hi then
      let child :=
        if child + 1 < hi ∧ less (aget arr (first + child)) (aget arr (first + child + 1)) then
          child + 1
        else child
      if less (aget arr (first + root)) (aget arr (first + child)) then
        siftDownGo less hi first (arrSwap arr (first + root) (first + child)) child
      else arr
    else arr
  termination_by arr root => hi - root
  decreasing_by
    split <;> omega

/-- Embeds the heap-building loop of `heapSort`: `for i := (hi-1)/2; i >= 0;
i--`, run here with the count of remaining iterations. -/
def heapBuildLoop {α : Type} [Inhabited α] (less : α → α → Bool) (hi first : Nat) :
    Array α → Nat → Array α
  | arr, 0 => arr
  | arr, i + 1 => heapBuildLoop less hi first (siftDownGo less hi first arr i) i

/-- Embeds the pop loop of `heapSort`: `for i := hi - 1; i >= 0; i--`, run
with the count of remaining iterations. -/
def heapPopLoop {α : Type} [Inhabited α] (less : α → α → Bool) (first : Nat) :
    Array α → Nat → Array α
  | arr, 0 => arr
  | arr, i + 1 =>
    heapPopLoop less first (siftDownGo less i first (arrSwap arr first (first + i)) 0) i

/-- Embeds `heapSort(data, a, b)`. -/
def heapSortGo {α : Type} [Inhabited α] (less : α → α → Bool) (arr : Array α)
    (a b : Nat) : Array α :=
  let first := a
  let hi := b - a
  let arr := heapBuildLoop less hi first arr ((hi - 1) / 2 + 1)
  heapPopLoop less first arr hi

/-- Embeds `medianOfThree(data, m1, m0, m2)`. -/
def medianOfThree {α : Type} [Inhabited α] (less : α → α → Bool) (arr : Array α)
    (m1 m0 m2 : Nat) : Array α :=
  let arr := if less (aget arr m1) (aget arr m0) then arrSwap arr m1 m0 else arr
  if less (aget arr m2) (aget arr m1) then
    let arr := arrSwap arr m2 m1
    if less (aget arr m1) (aget arr m0) then arrSwap arr m1 m0 else arr
  else arr

/-- Embeds the scan `for ; a < c && data.Less(a, pivot); a++`. -/
def dpScanA {α : Type} [Inhabited α] (less : α → α → Bool) (arr : Array α)
    (pivot c : Nat) : Nat → Nat
  | a =>
    if a < c ∧ less (aget arr a) (aget arr pivot) then dpScanA less arr pivot c (a + 1)
    else a
  termination_by a => c - a

/-- Embeds the partition loop of `doPivot` (the `for {}` with the two inner
scans, a step at a time: advance `b` over elements ≤ pivot, retreat `c` over
elements > pivot, and otherwise swap `b` and `c-1`; stops when `b >= c`). -/
def dpPartitionLoop {α : Type} [Inhabited α] (less : α → α → Bool) (pivot : Nat) :
    Array α → Nat → Nat → Array α × Nat × Nat
  | arr, b, c =>
    if b < c ∧ ¬ less (aget arr pivot) (aget arr b) then
      dpPartitionLoop less pivot arr (b + 1) c
    else if b < c ∧ less (aget arr pivot) (aget arr (c - 1)) then
      dpPartitionLoop less pivot arr b (c - 1)
    else if b ≥ c then (arr, b, c)
    else dpPartitionLoop less pivot (arrSwap arr b (c - 1)) (b + 1) (c - 1)
  termination_by _ b c => c - b

/-- Embeds the duplicate-protection loop of `doPivot`. -/
def dpProtectLoop {α : Type} [Inhabited α] (less : α → α → Bool) (pivot : Nat) :
    Array α → Nat → Nat → Array α × Nat × Nat
  | arr, a, b =>
    if a < b ∧ ¬ less (aget arr (b - 1)) (aget arr pivot) then
      dpProtectLoop less pivot arr a (b - 1)
    else if a < b ∧ less (aget arr a) (aget arr pivot) then
      dpProtectLoop less pivot arr (a + 1) b
    else if a ≥ b then (arr, a, b)
    else dpProtectLoop less pivot (arrSwap arr a (b - 1)) (a + 1) (b - 1)
  termination_by _ a b => b - a


/-- Embeds the duplicate test block of `doPivot` (`dups := 0; ...;
protect = dups > 1`): three equality-to-pivot probes, each updating the
array, `b`, `c` and the duplicate count in sequence; yields the updated
array, `b`, `c` and the new `protect` flag. -/
def dpDupCheck {α : Type} [Inhabited α] (less : α → α → Bool) (arr : Array α)
    (pivot m b c hi : Nat) : Array α × Nat × Nat × Bool :=
  let s1 : Array α × Nat × Nat :=
    if ¬ less (aget arr pivot) (aget arr (hi - 1)) then (arrSwap arr c (hi - 1), c + 1, 1)
    else (arr, c, 0)
  match s1 with
  | (arr1, c1, dups1) =>
    let s2 : Nat × Nat :=
      if ¬ less (aget arr1 (b - 1)) (aget arr1 pivot) then (b - 1, dups1 + 1) else (b, dups1)
    match s2 with
    | (b2, dups2) =>
      let s3 : Array α × Nat × Nat :=
        if ¬ less (aget arr1 m) (aget arr1 pivot) then
          (arrSwap arr1 m (b2 - 1), b2 - 1, dups2 + 1)
        else (arr1, b2, dups2)
      match s3 with
      | (arr3, b3, dups3) => (arr3, b3, c1, dups3 > 1)

/-- Embeds `doPivot(data, lo, hi)` as shipped in Go 1.9 through 1.18
(median-of-three/nine pivot choice, partition, duplicate protection);
returns the mutated array and `(midlo, midhi)`. -/
def doPivotGo {α : Type} [Inhabited α] (less : α → α → Bool) (arr : Array α)
    (lo hi : Nat) : Array α × Nat × Nat :=
  let m := (lo + hi) / 2
  let arr :=
    if hi - lo > 40 then
      let s := (hi - lo) / 8
      let arr := medianOfThree less arr lo (lo + s) (lo + 2 * s)
      let arr := medianOfThree less arr m (m - s) (m + s)
      medianOfThree less arr (hi - 1) (hi - 1 - s) (hi - 1 - 2 * s)
    else arr
  let arr := medianOfThree less arr lo m (hi - 1)
  let pivot := lo
  let a := dpScanA less arr pivot (hi - 1) (lo + 1)
  match dpPartitionLoop less pivot arr a (hi - 1) with
  | (arr1, b1, c1) =>
    let protect := hi - c1 < 5
    match
      (if ¬ protect ∧ hi - c1 < (hi - lo) / 4 then dpDupCheck less arr1 pivot m b1 c1 hi
       else (arr1, b1, c1, protect)) with
    | (arr2, b2, c2, protect2) =>
      match (if protect2 then dpProtectLoop less pivot arr2 a b2 else (arr2, a, b2)) with
      | (arr3, _, b3) => (arrSwap arr3 pivot (b3 - 1), b3 - 1, c2)

/-- Embeds the gap-6 Shell pass `for i := a + 6; i < b; i++ { if
data.Less(i, i-6) { data.Swap(i, i-6) } }`. -/
def shellPass {α : Type} [Inhabited α] (less : α → α → Bool) (b : Nat) :
    Array α → Nat → Array α
  | arr, i =>
    if i < b then
      if less (aget arr i) (aget arr (i - 6)) then
        shellPass less b (arrSwap arr i (i - 6)) (i + 1)
      else shellPass less b arr (i + 1)
    else arr
  termination_by _ i => b - i

/-- Embeds `quickSort(data, a, b, maxDepth)` (Go 1.6-1.18): while more than
12 elements, heapsort once the depth budget is exhausted, otherwise partition
and recurse (smaller side first, the loop continuing on the larger side);
at 12 or fewer elements, a gap-6 Shell pass followed by insertion sort. -/
def quickSortGo {α : Type} [Inhabited α] (less : α → α → Bool) :
    Array α → Nat → Nat → Nat → Array α
  | arr, a, b, maxDepth =>
    if b - a > 12 then
      match maxDepth with
      | 0 => heapSortGo less arr a b
      | m + 1 =>
        match doPivotGo less arr a b with
        | (arr1, mlo, mhi) =>
          if mlo - a < b - mhi then
            quickSortGo less (quickSortGo less arr1 a mlo m) mhi b m
          else
            quickSortGo less (quickSortGo less arr1 mhi b m) a mlo m
    else if b - a > 1 then
      insertionSortGo less b (shellPass less b arr (a + 6)) a (a + 1)
    else arr
  termination_by _ _ _ d => d

/-- Embeds `maxDepth(n)`: `2 * ceil(lg(n+1))`, computed by the halving loop
`for i := n; i > 0; i >>= 1 { depth++ }`. -/
def maxDepthLoop : Nat → Nat
  | n => if n > 0 then maxDepthLoop (n / 2) + 1 else 0
  termination_by n => n

/-- Embeds `sort.Sort(data)` for a data of length `n = arr.size`. -/
def sortGo {α : Type} [Inhabited α] (less : α → α → Bool) (arr : Array α) : Array α :=
  quickSortGo less arr 0 arr.size (2 * maxDepthLoop arr.size)

/-- Embeds the `sort.Sort(&sorter{...})` call of `computeSortedRows`
(sort.go lines 125-129): the rows collected from the child are sorted with
`sorter.Less` built from the Sort node's field indexes and types only. -/
def sortRowsGo {α : Type} [Inhabited α] (indexes : List Nat) (types : List (GqlType α))
    (rows : List (List α)) : List (List α) :=
  (sortGo (sorterLess indexes types) rows.toArray).toList

/-- Rows emitted by a constructed Sort node over materialized child rows: the
child rows are fully collected, then sorted by `sort.Sort` with the node's
`fieldIndexes`/`fieldTypes` (the `sortFields`, and with them every
`SortField.Order`, are not passed to the sorter). -/
def sortNodeRows {α : Type} [Inhabited α] (s : SortNode α) (childRows : List (List α)) :
    List (List α) :=
  sortRowsGo s.fieldIndexes s.fieldTypes childRows

/-! ## The sort iterator (sort.go lines 79-132)

The child row iterator is represented by the sequence of answers its `Next`
gives on consecutive calls; the sort iterator keeps a cursor counting how
many times it has called the child. -/

/-- One answer of a child iterator's `Next`: a row, `io.EOF`, or another
error. -/
inductive ChildStep (α : Type) where
  | row (r : List α)
  | eof
  | err (e : String)
  deriving DecidableEq, Repr

/-- A child answer is terminal when it is EOF or an error. -/
def ChildStep.isTerminal {α : Type} : ChildStep α → Bool
  | .row _ => false
  | .eof => true
  | .err _ => true

/-- Embeds `sortIter`'s mutable state (sort.go lines 79-84): how far the
child has been consumed, the materialized `sortedRows`, and `idx` (-1 until
the rows are computed). -/
structure SortIterState (α : Type) where
  cursor : Nat
  sortedRows : List (List α)
  idx : Int
  deriving DecidableEq, Repr

/-- The state `newSortIter` builds (sort.go lines 86-93). -/
def sortIterInit {α : Type} : SortIterState α := ⟨0, [], -1⟩

/-- One answer of `sortIter.Next`. -/
inductive SortStep (α : Type) where
  | row (r : List α)
  | eof
  | err (e : String)
  deriving DecidableEq, Repr

/-- A sort-iterator answer is terminal when it is EOF or an error. -/
def SortStep.isTerminal {α : Type} : SortStep α → Bool
  | .row _ => false
  | .eof => true
  | .err _ => true

/-- Embeds the draining loop of `computeSortedRows` (sort.go lines 114-124):
pull child rows from the cursor on, stopping at `io.EOF` (success) or an
error (returned, rows discarded); yields the rows, the error if any, and the
new cursor.  `fuel` bounds the number of child calls; `none` means the bound
was hit before the child terminated. -/
def drainChild {α : Type} (child : Nat → ChildStep α) :
    Nat → Nat → Option (List (List α) × Option String × Nat)
  | 0, _ => none
  | fuel + 1, cursor =>
    match child cursor with
    | .eof => some ([], none, cursor + 1)
    | .err e => some ([], some e, cursor + 1)
    | .row r =>
      (drainChild child fuel (cursor + 1)).map (fun p => (r :: p.1, p.2.1, p.2.2))

/-- The emit phase of `sortIter.Next` (sort.go lines 105-110): EOF once `idx`
reaches the length of `sortedRows` (leaving the state unchanged), otherwise
the row under `idx`, which is then incremented. -/
def sortEmit {α : Type} (st : SortIterState α) : SortIterState α × SortStep α :=
  if st.idx ≥ (st.sortedRows.length : Int) then (st, .eof)
  else ({ st with idx := st.idx + 1 }, .row (st.sortedRows.getD st.idx.toNat []))

/-- Embeds `sortIter.Next` (sort.go lines 95-111): on the first call
(`idx == -1`) the child is drained and sorted — on a child error that error
is returned and `idx` stays -1 — then rows are emitted from `sortedRows`
until EOF. -/
def sortIterNext {α : Type} [Inhabited α] (indexes : List Nat) (types : List (GqlType α))
    (child : Nat → ChildStep α) (fuel : Nat) (st : SortIterState α) :
    Option (SortIterState α × SortStep α) :=
  if st.idx = -1 then
    match drainChild child fuel st.cursor with
    | none => none
    | some (_, some e, c) => some ({ st with cursor := c }, .err e)
    | some (rows, none, c) =>
      some (sortEmit ⟨c, sortRowsGo indexes types rows, 0⟩)
  else some (sortEmit st)

/-- The answer of the `k+1`-th further call to `sortIter.Next` starting from
`st`, every call granted `fuel` child pulls. -/
def sortIterCalls {α : Type} [Inhabited α] (indexes : List Nat) (types : List (GqlType α))
    (child : Nat → ChildStep α) (fuel : Nat) :
    Nat → SortIterState α → Option (SortIterState α × SortStep α)
  | 0, st => sortIterNext indexes types child fuel st
  | k + 1, st =>
    match sortIterNext indexes types child fuel st with
    | none => none
    | some (st1, _) => sortIterCalls indexes types child fuel k st1

/-! ## Squash-joins model (spec sections 4.6-4.7)

Modelled from the spec: the squash-joins rule and the squashed iterator live
in `internal/rule` and the squash iterator files, which are not among the
provided sources; only their regression test (`TestSquashCorrectness`) is.
The model follows the specification text: an admissible chain is a sequence
of Git tables joined by conjunctions of equalities on canonical keys; the
generic plan executes the joins as nested loops with the collected filters
evaluated on top, while the squashed table walks the chain, at each stage
point-looking-up the rows matching the parent's emitted key and pre-applying
the stage's pushed-down filter. -/

/-- Modelled from the spec: one stage of an admissible join chain — the
stage's table rows, the conjunction of key equalities against the
concatenation of the rows accumulated so far (positions into that
concatenated row and into the stage row), and the filter pushed into this
table (`fun _ => true` when none). -/
structure SquashStage where
  table : List TextRow
  eqs : List (Nat × Nat)
  filt : TextRow → Bool

/-- Modelled from the spec: a conjunction of equalities on canonical keys,
evaluated between the accumulated row and a candidate stage row. -/
def joinCond (eqs : List (Nat × Nat)) (acc row : TextRow) : Bool :=
  eqs.all (fun p => acc.getD p.1 "" == row.getD p.2 "")

/-- Modelled from the spec: generic (non-squashed) execution of the remaining
chain — a nested-loop inner join per stage, keeping every tuple whose join
conditions hold; filters are not applied here but on top (they sit above the
joins in the generic plan).  Each result lists the stage rows appended by the
walk below `acc`. -/
def genericExtensions (acc : TextRow) : List SquashStage → List (List TextRow)
  | [] => [[]]
  | st :: rest =>
    (st.table.filter (fun b => joinCond st.eqs acc b)).flatMap
      (fun b => (genericExtensions (acc ++ b) rest).map (fun ext => b :: ext))

/-- Modelled from the spec: the fused squash walk of the remaining chain —
each stage point-looks-up the rows matching the accumulated keys and applies
its pushed-down filter right there, recursing below each surviving row. -/
def squashExtensions (acc : TextRow) : List SquashStage → List (List TextRow)
  | [] => [[]]
  | st :: rest =>
    (st.table.filter (fun b => joinCond st.eqs acc b && st.filt b)).flatMap
      (fun b => (squashExtensions (acc ++ b) rest).map (fun ext => b :: ext))

/-- The collected pushed-down filters of the chain, evaluated stage by stage
on a produced tuple — this is the filter the generic plan runs on top of the
join tree. -/
def stageFilters (chain : List SquashStage) (ext : List TextRow) : Bool :=
  (chain.zip ext).all (fun p => p.1.filt p.2)

/-- Rows of the generic plan `Filter(F, C)`: nested-loop joins, all collected
filters on top, output schema the concatenation of the stage schemas. -/
def genericChainRows (chain : List SquashStage) : List TextRow :=
  ((genericExtensions [] chain).filter (stageFilters chain)).map List.flatten

/-- Rows of the squashed table `SquashedTable(C, F)`. -/
def squashChainRows (chain : List SquashStage) : List TextRow :=
  (squashExtensions [] chain).map List.flatten

/-! ## Concrete instances used by witnesses and counterexamples -/

/-- Modelled from the spec: the integer comparison behind an int-typed
column, returning -1/0/1 per MySQL ordering of signed integers. -/
def intCompare (a b : Int) : Int :=
  if a < b then -1 else if b < a then 1 else 0

/-- An int-typed gitql column type. -/
def intTy : GqlType Int := ⟨intCompare⟩

/-- The denotation of the by-hash iterator as a walk over the hash list: for
each requested hash in order, the entries of its tree (nothing for a hash
whose tree is missing). -/
def byHashRowsSpec (repo : GitRepository) : List String → List TextRow
  | [] => []
  | h :: rest =>
    (match treeObject repo h with
     | none => []
     | some t => t.entries.map (treeEntryToRow repo.id t.hash)) ++
      byHashRowsSpec repo rest

/-- One query option is valid for `parseDirectory` when it has exactly one
value and its lowercased key names a recognized option with a well-formed
value. -/
def validDirOption : String × List String → Bool
  | (k, [val]) =>
    if asciiToLower k = "format" then val == "siva" || val == "git"
    else if asciiToLower k = "bare" then val == "true" || val == "false"
    else if asciiToLower k = "rooted" then val == "true" || val == "false"
    else if asciiToLower k = "bucket" then (goAtoi val).isSome
    else false
  | _ => false

/-- A connectivity trace in which the client never reports
`Ready`/`Idle`/`Connecting`: every poll lands in the reconnect branch. -/
def connAlwaysOther : Nat → ConnState := fun _ => .other

/-- Close and NewClient never fail. -/
def noClientErr : Nat → Option String := fun _ => none

/-- The child rows of the Sort stability counterexample: a single int sort
field (index 0) with a payload id in field 1; the two rows with key 5 are
ties, produced with id 0 before id 3. -/
def sortTiesInput : List (List Int) :=
  [[5, 0], [2, 1], [3, 2], [5, 3], [4, 4], [4, 5], [1, 6]]

/-- A two-tree repository used by witnesses. -/
def witRepo : GitRepository :=
  ⟨"repo1",
    [ ⟨"t1", [⟨"a.txt", 0o100644, "b1"⟩, ⟨"b.txt", 0o100644, "b2"⟩]⟩
    , ⟨"t2", [⟨"c.txt", 0o100755, "b3"⟩]⟩ ]⟩

/-- A child iterator that yields one row and then keeps failing. -/
def witChild : Nat → ChildStep Int :=
  fun n => if n = 0 then .row [1] else .err "boom"

/-- The absorbing terminal configurations of the sort iterator: either EOF
has been reached (`idx` at or past the materialized rows), or the first call
hit a child error (`idx` still -1, the child's answer just before the cursor
being that error). -/
def sortIterTerminalInv {α : Type} (child : Nat → ChildStep α)
    (st : SortIterState α) (t : SortStep α) : Prop :=
  (t = .eof ∧ (st.sortedRows.length : Int) ≤ st.idx) ∨
  (∃ e, t = .err e ∧ st.idx = -1 ∧ 1 ≤ st.cursor ∧ child (st.cursor - 1) = .err e)

/-! # Theorems -/

set_option maxRecDepth 10000

/-! ## Squash-joins correctness (C1) -/

/-- Helper: flatMap over a filtered list guards the body instead. -/
theorem filter_flatMap_guard {α β : Type} (l : List α) (q : α → Bool) (f : α → List β) :
    (l.filter q).flatMap f = l.flatMap (fun x => if q x then f x else []) := by
  induction l with
  | nil => rfl
  | cons a l ih =>
    by_cases h : q a <;> simp [List.filter_cons, h, ih]

/-- Helper: filtering by a conjunction with a constant. -/
theorem filter_const_and {α : Type} (l : List α) (c : Bool) (p : α → Bool) :
    l.filter (fun x => c && p x) = if c then l.filter p else [] := by
  cases c <;> simp

/-- Helper: the collected filters on a cons tuple split into the head
stage's filter and the rest. -/
theorem stageFilters_cons (st : SquashStage) (rest : List SquashStage)
    (b : TextRow) (ext : List TextRow) :
    stageFilters (st :: rest) (b :: ext) = (st.filt b && stageFilters rest ext) := rfl

/-- The squashed walk produces exactly the generic join tuples that survive
the collected filters. -/
theorem squashExtensions_eq_filter (chain : List SquashStage) : ∀ acc : TextRow,
    squashExtensions acc chain =
      (genericExtensions acc chain).filter (stageFilters chain) := by
  induction chain with
  | nil =>
    intro acc
    simp [squashExtensions, genericExtensions, stageFilters]
  | cons st rest ih =>
    intro acc
    simp only [squashExtensions, genericExtensions]
    rw [List.filter_flatMap]
    have hmap : ∀ b : TextRow,
        ((genericExtensions (acc ++ b) rest).map (fun ext => b :: ext)).filter
            (stageFilters (st :: rest)) =
          if st.filt b then (squashExtensions (acc ++ b) rest).map (fun ext => b :: ext)
          else [] := by
      intro b
      rw [List.filter_map]
      have hcomp : (stageFilters (st :: rest) ∘ fun ext => b :: ext) =
          fun ext => st.filt b && stageFilters rest ext := rfl
      rw [hcomp, filter_const_and]
      by_cases hb : st.filt b
      · simp [hb, ih]
      · simp [hb]
    have hbody : (fun b => ((genericExtensions (acc ++ b) rest).map
          (fun ext => b :: ext)).filter (stageFilters (st :: rest))) =
        (fun b => if st.filt b then
            (squashExtensions (acc ++ b) rest).map (fun ext => b :: ext)
          else []) := funext hmap
    rw [hbody]
    rw [filter_flatMap_guard, filter_flatMap_guard]
    have : (fun x => if joinCond st.eqs acc x && st.filt x then
          (squashExtensions (acc ++ x) rest).map (fun ext => x :: ext) else []) =
        (fun x => if joinCond st.eqs acc x then
          (if st.filt x then
            (squashExtensions (acc ++ x) rest).map (fun ext => x :: ext) else [])
          else []) := by
      funext x
      by_cases hc : joinCond st.eqs acc x <;> by_cases hf : st.filt x <;> simp [hc, hf]
    rw [this]

/-- C1: for every admissible join chain and every set of pushed-down,
per-table filters, the squashed walk yields the same multiset of rows as the
generic (non-squashed) join plan with the filters applied on top — here the
two row lists are even equal, hence equal as multisets. -/
theorem squash_joins_correct (chain : List SquashStage) :
    (squashChainRows chain).Perm (genericChainRows chain) := by
  unfold squashChainRows genericChainRows
  rw [squashExtensions_eq_filter]

/-! ## tree_entries schema (C3) -/

/-- C3 counterexample: the claimed column order (repository_id, tree_hash,
tree_entry_name, blob_hash, tree_entry_mode) is not the schema's order — the
schema places tree_entry_name second and tree_hash fourth. -/
theorem treeEntriesSchema_claimed_order_false :
    ¬ (TreeEntriesSchema.map SqlColumn.name =
        ["repository_id", "tree_hash", "tree_entry_name", "blob_hash", "tree_entry_mode"]) := by
  decide

/-- C3 amended: the schema of tree_entries consists, in order, of
repository_id, tree_entry_name, blob_hash, tree_hash, tree_entry_mode, all of
text type. -/
theorem treeEntriesSchema_order :
    TreeEntriesSchema.map SqlColumn.name =
        ["repository_id", "tree_entry_name", "blob_hash", "tree_hash", "tree_entry_mode"]
      ∧ TreeEntriesSchema.all (fun c => c.type == SqlType.text) = true := by
  decide

/-! ## Sort stability (C4) -/

/-- C4: the code calls the unstable `sort.Sort`.  On the seven child rows of
`sortTiesInput` (single ascending int sort field at index 0, payload id in
field 1) the tied rows `[5,0]` (produced first, position 0) and `[5,3]`
(produced later, position 3) come out in the reverse relative order — the
gap-6 Shell pass swaps positions 0 and 6 and the subsequent insertion sort
keeps `[5,3]` in front — so Sort is not stable on ties. -/
theorem sortSort_reorders_ties :
    sortRowsGo [0] [intTy] sortTiesInput =
        [[1, 6], [2, 1], [3, 2], [4, 4], [4, 5], [5, 3], [5, 0]]
      ∧ intCompare 5 5 = 0
      ∧ sortTiesInput.indexOf [5, 0] = 0 ∧ sortTiesInput.indexOf [5, 3] = 3 := by
  refine ⟨?_, by decide, by decide, by decide⟩
  simp [sortRowsGo, sortGo, quickSortGo, maxDepthLoop, shellPass, insertionSortGo,
    insertionInner, sorterLess, aget, arrSwap, intTy, intCompare, sortTiesInput]

/-! ## Sort descending order (C5) -/

/-- C5: `sorter.Less` never consults `SortField.Order`, so a Sort whose only
field is declared Descending still emits rows ascending: on child rows
`[[1],[2]]` the output is `[[1],[2]]` although descending order would be
`[[2],[1]]` (the first output row compares -1, i.e. strictly below, against
the second on the descending field). -/
theorem sort_descending_ignored :
    (NewSort [⟨"a", .descending⟩] [⟨"a", intTy⟩]).map
        (fun s => sortNodeRows s [[1], [2]]) = .ok [[1], [2]]
      ∧ intCompare 1 2 = -1 := by
  constructor
  · simp [NewSort, newSortCollect, sortFieldLookup, Except.map, sortNodeRows,
      sortRowsGo, sortGo, quickSortGo, maxDepthLoop, shellPass, insertionSortGo,
      insertionInner, sorterLess, aget, arrSwap, intTy, intCompare]
  · decide

/-! ## tree_entries pushdown on tree_hash (C2) -/

/-- The drained by-hash iterator equals its walk denotation: from any state,
the remaining rows are the rest of the current tree's entries followed by the
walks of the remaining hashes. -/
theorem byHashRows_eq_spec (repo : GitRepository) (hashes : List String) :
    ∀ s : ByHashState,
      byHashRows repo hashes s =
        (match s.tree with
         | none => []
         | some t => (t.entries.drop s.cursor).map (treeEntryToRow repo.id t.hash)) ++
          byHashRowsSpec repo (hashes.drop s.pos) := by
  apply byHashRows.induct repo hashes
    (fun s => byHashRows repo hashes s =
      (match s.tree with
       | none => []
       | some t => (t.entries.drop s.cursor).map (treeEntryToRow repo.id t.hash)) ++
        byHashRowsSpec repo (hashes.drop s.pos))
  · intro pos cursor hp hl ih
    simp only at ih ⊢
    rw [byHashRows, dif_pos hp, hl, ih]
    rw [List.drop_eq_getElem_cons hp, byHashRowsSpec]
    simp only [List.get_eq_getElem] at hl
    simp [hl]
  · intro pos cursor hp t hl h0 ih
    simp only at ih ⊢
    rw [byHashRows, dif_pos hp, hl]
    simp only []
    rw [dif_pos h0, ih]
    rw [List.drop_eq_getElem_cons hp, byHashRowsSpec]
    simp only [List.get_eq_getElem] at hl
    simp only [hl]
    have hmap : ∀ (l : List GitTreeEntry) (h : 0 < l.length),
        l.map (treeEntryToRow repo.id t.hash) =
          treeEntryToRow repo.id t.hash (l.get ⟨0, h⟩) ::
            (l.drop 1).map (treeEntryToRow repo.id t.hash) := by
      intro l h
      cases l with
      | nil => cases h
      | cons e es => simp
    rw [hmap t.entries h0]
    simp
  · intro pos cursor hp t hl h0 ih
    simp only at ih ⊢
    rw [byHashRows, dif_pos hp, hl]
    simp only []
    rw [dif_neg h0, ih]
    rw [List.drop_eq_getElem_cons hp, byHashRowsSpec]
    simp only [List.get_eq_getElem] at hl
    have hempty : t.entries = [] := List.length_eq_zero.mp (by omega)
    simp [hl, hempty]
  · intro pos cursor hp
    simp only
    rw [byHashRows, dif_neg hp]
    rw [List.drop_eq_nil_of_le (Nat.le_of_not_lt hp)]
    simp [byHashRowsSpec]
  · intro pos t cursor hc ih
    simp only at ih ⊢
    rw [byHashRows, dif_pos hc, ih]
    have hdrop : t.entries.drop cursor =
        t.entries.get ⟨cursor, hc⟩ :: t.entries.drop (cursor + 1) := by
      rw [List.drop_eq_getElem_cons hc]
      simp
    rw [hdrop]
    simp
    have hlen : cursor < (List.map (treeEntryToRow repo.id t.hash) t.entries).length := by
      simpa using hc
    rw [List.drop_eq_getElem_cons hlen]
    simp
  · intro pos t cursor hc ih
    simp only at ih ⊢
    rw [byHashRows, dif_neg hc, ih]
    have hnil : t.entries.drop cursor = [] :=
      List.drop_eq_nil_of_le (Nat.le_of_not_lt hc)
    rw [hnil]
    simp

/-- The drained row list is exactly what repeated calls of the embedded
`Next` produce: one step of `byHashNext` either ends the drain (EOF) or
yields the next row and the state the drain continues from. -/
theorem byHashRows_eq_next_drain (repo : GitRepository) (hashes : List String) :
    ∀ s : ByHashState,
      byHashRows repo hashes s =
        (match byHashNext repo hashes s with
         | (_, .eof) => []
         | (s2, .row r) => r :: byHashRows repo hashes s2) := by
  apply byHashNext.induct repo hashes
    (fun s => byHashRows repo hashes s =
      (match byHashNext repo hashes s with
       | (_, .eof) => []
       | (s2, .row r) => r :: byHashRows repo hashes s2))
  · intro pos cursor hp hl ih
    rw [byHashRows, dif_pos hp, hl]
    conv_rhs => rw [byHashNext, dif_pos hp, hl]
    simp only []
    exact ih
  · intro pos cursor hp t hl h0
    rw [byHashRows, dif_pos hp, hl]
    simp only []
    rw [dif_pos h0]
    conv_rhs => rw [byHashNext, dif_pos hp, hl]
    simp only []
    rw [dif_pos h0]
  · intro pos cursor hp t hl h0 ih
    rw [byHashRows, dif_pos hp, hl]
    simp only []
    rw [dif_neg h0]
    conv_rhs => rw [byHashNext, dif_pos hp, hl]
    simp only []
    rw [dif_neg h0]
    exact ih
  · intro pos cursor hp
    rw [byHashRows, dif_neg hp]
    conv_rhs => rw [byHashNext, dif_neg hp]
  · intro pos t cursor hc
    rw [byHashRows, dif_pos hc]
    conv_rhs => rw [byHashNext, dif_pos hc]
  · intro pos t cursor hc ih
    rw [byHashRows, dif_neg hc]
    conv_rhs => rw [byHashNext, dif_neg hc]
    exact ih

/-- Completeness of the by-hash walk: the row of every entry of every
requested hash whose tree exists is produced. -/
theorem mem_byHashRowsSpec_of (repo : GitRepository) (hs : List String)
    (h : String) (t : GitTree) (e : GitTreeEntry)
    (hh : h ∈ hs) (ht : treeObject repo h = some t) (he : e ∈ t.entries) :
    treeEntryToRow repo.id t.hash e ∈ byHashRowsSpec repo hs := by
  induction hs with
  | nil => cases hh
  | cons a rest ih =>
    rw [byHashRowsSpec]
    rcases List.mem_cons.mp hh with heq | hmem
    · subst heq
      rw [ht]
      exact List.mem_append_left _ (List.mem_map_of_mem _ he)
    · exact List.mem_append_right _ (ih hmem)

/-- Soundness of the by-hash walk: every produced row carries one of the
requested hashes in its tree_hash column (schema position 3). -/
theorem byHashRowsSpec_sound (repo : GitRepository) (hs : List String) :
    ∀ r ∈ byHashRowsSpec repo hs, r.getD 3 "" ∈ hs := by
  induction hs with
  | nil => simp [byHashRowsSpec]
  | cons a rest ih =>
    intro r hr
    rw [byHashRowsSpec] at hr
    rcases List.mem_append.mp hr with hl | hrr
    · cases hlook : treeObject repo a with
      | none => rw [hlook] at hl; cases hl
      | some t =>
        rw [hlook] at hl
        rcases List.mem_map.mp hl with ⟨e, _, rfl⟩
        have hhash : t.hash = a := by
          have := List.find?_some hlook
          simpa using this
        simp [treeEntryToRow, hhash]
    · exact List.mem_cons_of_mem _ (ih r hrr)

/-- C2: with equality/IN values pushed down on tree_hash, the iterator
builder switches from the enumerate-all iterator to the by-hash point-lookup
iterator; that iterator produces the entries of every requested tree hash
present in the repository, and every emitted row satisfies the pushed filter
(its tree_hash column holds one of the requested values). -/
theorem treeEntries_treeHash_pushdown (repo : GitRepository) (hashes : List String)
    (hne : hashes ≠ []) :
    treeEntriesIterBuilder hashes = .byHash hashes
      ∧ treeEntriesIterBuilder [] = .allTrees
      ∧ (∀ h ∈ hashes, ∀ t : GitTree, treeObject repo h = some t →
          ∀ e ∈ t.entries,
            treeEntryToRow repo.id t.hash e ∈ treeEntriesByHashRows repo hashes)
      ∧ (∀ r ∈ treeEntriesByHashRows repo hashes, r.getD 3 "" ∈ hashes) := by
  have hspec : treeEntriesByHashRows repo hashes = byHashRowsSpec repo hashes := by
    unfold treeEntriesByHashRows
    rw [byHashRows_eq_spec]
    simp
  refine ⟨?_, rfl, ?_, ?_⟩
  · simp [treeEntriesIterBuilder, hne]
  · intro h hh t ht e he
    rw [hspec]
    exact mem_byHashRowsSpec_of repo hashes h t e hh ht he
  · intro r hr
    rw [hspec] at hr
    exact byHashRowsSpec_sound repo hashes r hr

/-- C2 witness: on a concrete two-tree repository with requested hashes
`["t2", "t1"]`, the builder picks the by-hash iterator, the row of entry
`a.txt` of tree `t1` is produced, and every emitted row's tree_hash is one of
the requested values. -/
theorem treeEntries_treeHash_pushdown_witness :
    treeEntriesIterBuilder ["t2", "t1"] = .byHash ["t2", "t1"]
      ∧ treeEntryToRow "repo1" "t1" ⟨"a.txt", 0o100644, "b1"⟩ ∈
          treeEntriesByHashRows witRepo ["t2", "t1"]
      ∧ (∀ r ∈ treeEntriesByHashRows witRepo ["t2", "t1"], r.getD 3 "" ∈ ["t2", "t1"]) := by
  obtain ⟨h1, _, h3, h4⟩ :=
    treeEntries_treeHash_pushdown witRepo ["t2", "t1"] (by decide)
  refine ⟨h1, ?_, h4⟩
  have ht : treeObject witRepo "t1" =
      some ⟨"t1", [⟨"a.txt", 0o100644, "b1"⟩, ⟨"b.txt", 0o100644, "b2"⟩]⟩ := by decide
  exact h3 "t1" (by decide) _ ht ⟨"a.txt", 0o100644, "b1"⟩ (by decide)

/-! ## Sort iterator is single-pass (C6) -/

/-- When draining ends in an error, the new cursor sits just past the
position at which the child answered that error. -/
theorem drainChild_err_pos {α : Type} (child : Nat → ChildStep α) :
    ∀ fuel cursor rows e c, drainChild child fuel cursor = some (rows, some e, c) →
      1 ≤ c ∧ child (c - 1) = .err e := by
  intro fuel
  induction fuel with
  | zero =>
    intro cursor rows e c h
    cases h
  | succ f ih =>
    intro cursor rows e c h
    rw [drainChild] at h
    cases hc : child cursor with
    | eof =>
      rw [hc] at h
      simp at h
    | err e2 =>
      rw [hc] at h
      simp at h
      obtain ⟨-, he, hcur⟩ := h
      subst he
      subst hcur
      simpa using hc
    | row r =>
      rw [hc] at h
      cases hd : drainChild child f (cursor + 1) with
      | none => rw [hd] at h; cases h
      | some p =>
        obtain ⟨rs, oe, c2⟩ := p
        rw [hd] at h
        simp at h
        obtain ⟨-, h2, h3⟩ := h
        exact ih (cursor + 1) rs e c (by rw [hd]; simp [h2, h3])

/-- A terminal configuration is absorbing: one more `Next` returns the same
terminal answer and stays terminal. -/
theorem sortIter_terminal_step {α : Type} [Inhabited α] (indexes : List Nat)
    (types : List (GqlType α)) (child : Nat → ChildStep α)
    (hsp : ∀ n, (child n).isTerminal = true → child (n + 1) = child n)
    (st : SortIterState α) (t : SortStep α)
    (hinv : sortIterTerminalInv child st t) :
    ∀ fuel, 1 ≤ fuel →
      ∃ st2, sortIterNext indexes types child fuel st = some (st2, t) ∧
        sortIterTerminalInv child st2 t := by
  intro fuel hfuel
  rcases hinv with ⟨ht, hidx⟩ | ⟨e, ht, hidx, hcur, herr⟩
  · subst ht
    have hne : ¬ st.idx = -1 := by
      have hnn : (0 : Int) ≤ (st.sortedRows.length : Int) := by exact_mod_cast Nat.zero_le _
      omega
    refine ⟨st, ?_, Or.inl ⟨rfl, hidx⟩⟩
    rw [sortIterNext, if_neg hne, sortEmit, if_pos hidx]
  · subst ht
    obtain ⟨f, rfl⟩ : ∃ f, fuel = f + 1 := ⟨fuel - 1, by omega⟩
    have hnow : child st.cursor = .err e := by
      have := hsp (st.cursor - 1) (by rw [herr]; rfl)
      rw [herr] at this
      have hc1 : st.cursor - 1 + 1 = st.cursor := by omega
      rw [hc1] at this
      exact this
    refine ⟨{ st with cursor := st.cursor + 1 }, ?_, Or.inr ⟨e, rfl, hidx, by simp, by simpa using hnow⟩⟩
    rw [sortIterNext, if_pos hidx, drainChild, hnow]

/-- The first terminal answer of `sortIter.Next` lands in a terminal
configuration. -/
theorem sortIter_first_terminal {α : Type} [Inhabited α] (indexes : List Nat)
    (types : List (GqlType α)) (child : Nat → ChildStep α)
    (fuel : Nat) (st st1 : SortIterState α) (t : SortStep α)
    (h1 : sortIterNext indexes types child fuel st = some (st1, t))
    (ht : t.isTerminal = true) :
    sortIterTerminalInv child st1 t := by
  rw [sortIterNext] at h1
  by_cases hidx : st.idx = -1
  · rw [if_pos hidx] at h1
    cases hd : drainChild child fuel st.cursor with
    | none => rw [hd] at h1; cases h1
    | some p =>
      obtain ⟨rows, oe, c⟩ := p
      cases oe with
      | some e =>
        rw [hd] at h1
        simp at h1
        obtain ⟨hst, htt⟩ := h1
        subst htt
        have := drainChild_err_pos child fuel st.cursor rows e c hd
        exact Or.inr ⟨e, rfl, by rw [← hst]; exact hidx,
          by rw [← hst]; exact this.1, by rw [← hst]; exact this.2⟩
      | none =>
        rw [hd] at h1
        simp only [Option.some.injEq] at h1
        rw [sortEmit] at h1
        by_cases hlen : (0 : Int) ≥ ((sortRowsGo indexes types rows).length : Int)
        · rw [if_pos (by simpa using hlen)] at h1
          simp at h1
          obtain ⟨hst, htt⟩ := h1
          subst htt
          exact Or.inl ⟨rfl, by rw [← hst]; simpa using hlen⟩
        · rw [if_neg (by simpa using hlen)] at h1
          simp at h1
          obtain ⟨-, htt⟩ := h1
          subst htt
          simp [SortStep.isTerminal] at ht
  · rw [if_neg hidx] at h1
    rw [sortEmit] at h1
    by_cases hlen : st.idx ≥ (st.sortedRows.length : Int)
    · rw [if_pos hlen] at h1
      simp at h1
      obtain ⟨hst, htt⟩ := h1
      subst htt
      exact Or.inl ⟨rfl, by rw [← hst]; exact hlen⟩
    · rw [if_neg hlen] at h1
      simp at h1
      obtain ⟨-, htt⟩ := h1
      subst htt
      simp [SortStep.isTerminal] at ht

/-- C6: the sort iterator is single-pass.  If the child iterator itself is
single-pass (a terminal answer repeats), then once `sortIter.Next` has
returned the EOF sentinel or an error, every subsequent call — any number of
further `Next` invocations, with any positive fuel — returns that same
terminal result. -/
theorem sortIter_single_pass {α : Type} [Inhabited α] (indexes : List Nat)
    (types : List (GqlType α)) (child : Nat → ChildStep α)
    (hsp : ∀ n, (child n).isTerminal = true → child (n + 1) = child n)
    (fuel : Nat) (st st1 : SortIterState α) (t : SortStep α)
    (h1 : sortIterNext indexes types child fuel st = some (st1, t))
    (ht : t.isTerminal = true) :
    ∀ k fuel2, 1 ≤ fuel2 →
      ∃ st2, sortIterCalls indexes types child fuel2 k st1 = some (st2, t) := by
  have hinv := sortIter_first_terminal indexes types child fuel st st1 t h1 ht
  suffices hstep : ∀ k st0, sortIterTerminalInv child st0 t →
      ∀ fuel2, 1 ≤ fuel2 →
        ∃ st2, sortIterCalls indexes types child fuel2 k st0 = some (st2, t) ∧
          sortIterTerminalInv child st2 t by
    intro k fuel2 hf
    obtain ⟨st2, h, -⟩ := hstep k st1 hinv fuel2 hf
    exact ⟨st2, h⟩
  intro k
  induction k with
  | zero =>
    intro st0 h0 fuel2 hf
    obtain ⟨st2, hn, hi⟩ := sortIter_terminal_step indexes types child hsp st0 t h0 fuel2 hf
    exact ⟨st2, by rw [sortIterCalls, hn], hi⟩
  | succ k ih =>
    intro st0 h0 fuel2 hf
    obtain ⟨stm, hn, hi⟩ := sortIter_terminal_step indexes types child hsp st0 t h0 fuel2 hf
    obtain ⟨st2, hrest, hi2⟩ := ih stm hi fuel2 hf
    refine ⟨st2, ?_, hi2⟩
    rw [sortIterCalls, hn]
    simp only []
    exact hrest

/-- C6 witness: a concrete child that yields one row and then keeps
failing.  The first `Next` returns the child's error, and the three
subsequent calls all return that same error. -/
theorem sortIter_single_pass_witness :
    ∃ st2, sortIterCalls [0] [intTy] witChild 1 3 ⟨2, [], -1⟩ = some (st2, .err "boom") := by
  have hsp : ∀ n, (witChild n).isTerminal = true → witChild (n + 1) = witChild n := by
    intro n hn
    match n with
    | 0 => simp [witChild, ChildStep.isTerminal] at hn
    | m + 1 => simp [witChild]
  have h1 : sortIterNext [0] [intTy] witChild 5 sortIterInit = some (⟨2, [], -1⟩, .err "boom") := by
    rfl
  exact sortIter_single_pass [0] [intTy] witChild hsp 5 sortIterInit ⟨2, [], -1⟩
    (.err "boom") h1 rfl 3 1 (by decide)

/-! ## Directory URI parsing (C7) -/

/-- The query loop errors exactly on the first invalid option, and the error
it returns is always `ErrInvalid`: the loop succeeds iff every option is
valid. -/
theorem parseDirectoryQuery_err (q : List (String × List String)) : ∀ dir : Directory,
    (parseDirectoryQuery dir q).2 =
      if q.all validDirOption then none else some DirError.invalidOption := by
  induction q with
  | nil => intro dir; simp [parseDirectoryQuery]
  | cons kv rest ih =>
    intro dir
    obtain ⟨k, v⟩ := kv
    rcases v with - | ⟨val, - | ⟨v2, vrest⟩⟩
    · simp [parseDirectoryQuery, validDirOption]
    · simp only [parseDirectoryQuery, List.all_cons, validDirOption]
      by_cases hf : asciiToLower k = "format"
      · simp only [hf]
        by_cases hs : val = "siva"
        · subst hs; simp_all <;> rfl
        · by_cases hg : val = "git"
          · subst hg; simp_all <;> rfl
          · simp_all <;> rfl
      · by_cases hb : asciiToLower k = "bare"
        · simp only [hb]
          by_cases hs : val = "true"
          · subst hs; simp_all <;> rfl
          · by_cases hg : val = "false"
            · subst hg; simp_all <;> rfl
            · simp_all <;> rfl
        · by_cases hr : asciiToLower k = "rooted"
          · simp only [hr]
            by_cases hs : val = "true"
            · subst hs; simp_all <;> rfl
            · by_cases hg : val = "false"
              · subst hg; simp_all <;> rfl
              · simp_all <;> rfl
          · by_cases hk2 : asciiToLower k = "bucket"
            · simp only [hk2]
              cases hga : goAtoi val <;> simp_all <;> rfl
            · simp_all <;> rfl
    · simp [parseDirectoryQuery, validDirOption]

/-- C7 amended: a non-URI path is returned unchanged; a path the URL parser
rejects returns that parse error; a URI whose scheme is not `file` returns
the scheme-not-supported error (which is distinct from the invalid-option
error); and with the `file` scheme the call succeeds iff every query option
is recognized (case-insensitively) and well-formed, any offending option
producing the `ErrInvalid` invalid-option error. -/
theorem parseDirectory_errors (join : String → String → String) (dir : Directory) :
    parseDirectory join dir .notUri = (dir, none)
      ∧ (∀ e, parseDirectory join dir (.failed e) = (dir, some (.parseError e)))
      ∧ (∀ scheme host path q, scheme ≠ "file" →
          parseDirectory join dir (.parsed scheme host path q) =
            (dir, some (.schemeNotSupported dir.path)))
      ∧ (∀ host path q,
          (parseDirectory join dir (.parsed "file" host path q)).2 =
            if q.all validDirOption then none else some DirError.invalidOption) := by
  refine ⟨rfl, fun e => rfl, ?_, ?_⟩
  · intro scheme host path q hs
    rw [parseDirectory]
    rw [if_pos (by simpa using hs)]
  · intro host path q
    rw [parseDirectory]
    rw [if_neg (by simp)]
    exact parseDirectoryQuery_err q _

/-- C7 counterexample: a directory URI with scheme `http` is rejected with
the scheme-not-supported error, which is a different error from the
invalid-option error the claim promises for non-file schemes. -/
theorem parseDirectory_scheme_error_not_invalidOption :
    (parseDirectory (fun a b => a ++ "/" ++ b) ⟨"http://h/p", "git", 2, true, false⟩
        (.parsed "http" "h" "/p" [])).2 = some (.schemeNotSupported "http://h/p")
      ∧ DirError.schemeNotSupported "http://h/p" ≠ DirError.invalidOption := by
  exact ⟨rfl, by decide⟩

/-- C7 witness: concrete runs of every branch of the amended statement — an
unchanged plain path, a rejected scheme, an accepted case-insensitive and
well-formed query, and a rejected unknown key. -/
theorem parseDirectory_errors_witness :
    parseDirectory (fun a b => a ++ "/" ++ b) ⟨"p", "git", 2, true, false⟩ .notUri =
        (⟨"p", "git", 2, true, false⟩, none)
      ∧ parseDirectory (fun a b => a ++ "/" ++ b) ⟨"p", "git", 2, true, false⟩
          (.parsed "http" "h" "/p" []) =
          (⟨"p", "git", 2, true, false⟩, some (.schemeNotSupported "p"))
      ∧ (parseDirectory (fun a b => a ++ "/" ++ b) ⟨"p", "git", 2, true, false⟩
          (.parsed "file" "h" "/p" [("FORMAT", ["siva"]), ("bucket", ["42"])])).2 = none
      ∧ (parseDirectory (fun a b => a ++ "/" ++ b) ⟨"p", "git", 2, true, false⟩
          (.parsed "file" "h" "/p" [("nope", ["1"])])).2 = some DirError.invalidOption := by
  obtain ⟨h1, -, h3, h4⟩ :=
    parseDirectory_errors (fun a b => a ++ "/" ++ b) ⟨"p", "git", 2, true, false⟩
  refine ⟨h1, h3 "http" "h" "/p" [] (by decide), ?_, ?_⟩
  · rw [h4 "h" "/p" [("FORMAT", ["siva"]), ("bucket", ["42"])]]
    rw [if_pos (by decide)]
  · rw [h4 "h" "/p" [("nope", ["1"])]]
    rw [if_neg (by decide)]

/-! ## BblfshClient connection loop (C8) -/

/-- When every poll lands in the reconnect branch and clients close and open
cleanly, the loop starting with both counters at `n ≤ 11` performs exactly
`11 - n` further reconnects and then fails with `ErrBblfshConnection`. -/
theorem bblfshLoop_allOther (getState : Nat → ConnState)
    (closeErr newClientErr : Nat → Option String)
    (hg : ∀ n, getState n = .other) (hce : ∀ n, closeErr n = none)
    (hnc : ∀ n, newClientErr n = none) :
    ∀ d n, 11 - n = d → n ≤ 11 → ∀ iter reconn evs,
      bblfshLoop getState closeErr newClientErr iter reconn n n evs =
        (.errBblfshConnection, evs ++ List.replicate (11 - n) .reconnect) := by
  intro d
  induction d with
  | zero =>
    intro n hd hn iter reconn evs
    have hn11 : n = 11 := by omega
    subst hn11
    rw [bblfshLoop]
    rw [if_pos (by simp [bblfshMaxAttempts])]
    simp
  | succ d ih =>
    intro n hd hn iter reconn evs
    rw [bblfshLoop]
    rw [if_neg (by simp only [bblfshMaxAttempts]; omega)]
    simp only [hg, hce, hnc]
    rw [ih (n + 1) (by omega) (by omega)]
    have h1 : 11 - n = (11 - (n + 1)) + 1 := by omega
    rw [h1, List.replicate_succ]
    simp

/-- C8 amended: at first use with a lazily created client, when the client
never reports Ready/Idle/Connecting and creating or closing clients never
fails itself, the loop performs exactly 11 reconnect attempts — the guard
only fires once `attempts` exceeds `bblfshMaxAttempts = 10` — with no 100 ms
sleeps between them (sleeps happen only in the Connecting state), and the
exhaustion is reported as the single `ErrBblfshConnection` error class. -/
theorem bblfsh_exhaustion_eleven_reconnects (getState : Nat → ConnState)
    (closeErr newClientErr : Nat → Option String)
    (hg : ∀ n, getState n = .other) (hce : ∀ n, closeErr n = none)
    (hnc : ∀ n, newClientErr n = none) :
    bblfshClientFirstUse none getState closeErr newClientErr =
      (.errBblfshConnection, List.replicate 11 .reconnect) := by
  have h := bblfshLoop_allOther getState closeErr newClientErr hg hce hnc 11 0 rfl
    (by omega) 0 0 []
  rw [bblfshClientFirstUse]
  simpa using h

/-- C8 counterexample: with a client that never leaves the failed state, the
loop reaches exhaustion after 11 reconnect attempts — more than the claimed
10 — and with no 100 ms sleeps between them; the exhaustion error is
`ErrBblfshConnection`. -/
theorem bblfsh_reconnects_exceed_ten :
    (bblfshClientFirstUse none connAlwaysOther noClientErr noClientErr).1 =
        .errBblfshConnection
      ∧ (bblfshClientFirstUse none connAlwaysOther noClientErr noClientErr).2.count
          .reconnect = 11
      ∧ ¬ ((bblfshClientFirstUse none connAlwaysOther noClientErr noClientErr).2.count
          .reconnect ≤ 10)
      ∧ (bblfshClientFirstUse none connAlwaysOther noClientErr noClientErr).2.count
          .sleep100ms = 0 := by
  have h := bblfshLoop_allOther connAlwaysOther noClientErr noClientErr
    (fun _ => rfl) (fun _ => rfl) (fun _ => rfl) 11 0 rfl (by omega) 0 0 []
  have hfu : bblfshClientFirstUse none connAlwaysOther noClientErr noClientErr =
      (.errBblfshConnection, List.replicate 11 .reconnect) := by
    rw [bblfshClientFirstUse]
    simpa using h
  rw [hfu]
  refine ⟨rfl, ?_, ?_, ?_⟩ <;> simp [List.count_replicate]

/-- C8 witness for the amended statement: the concrete always-failing trace,
discharging each hypothesis. -/
theorem bblfsh_exhaustion_eleven_reconnects_witness :
    bblfshClientFirstUse none connAlwaysOther noClientErr noClientErr =
      (.errBblfshConnection, List.replicate 11 .reconnect) :=
  bblfsh_exhaustion_eleven_reconnects connAlwaysOther noClientErr noClientErr
    (fun _ => rfl) (fun _ => rfl) (fun _ => rfl)

/-! ## NewSort panics on unknown columns (C9) -/

/-- The lookup fails exactly when no schema column bears the name. -/
theorem sortFieldLookup_none_iff {α : Type} (sch : List (GqlColumn α)) (col : String) :
    sortFieldLookup sch col = none ↔ ∀ c ∈ sch, c.name ≠ col := by
  induction sch with
  | nil => simp [sortFieldLookup]
  | cons c rest ih =>
    rw [sortFieldLookup]
    by_cases h : c.name = col
    · simp [h]
    · simp [h, ih]

/-- A successful lookup returns the first matching index and its type. -/
theorem sortFieldLookup_some {α : Type} :
    ∀ (sch : List (GqlColumn α)) (col : String) (i : Nat) (ty : GqlType α),
      sortFieldLookup sch col = some (i, ty) →
        ∃ hc : i < sch.length,
          (sch.get ⟨i, hc⟩).name = col ∧ (sch.get ⟨i, hc⟩).type = ty ∧
          ∀ j, ∀ hj : j < sch.length, j < i → (sch.get ⟨j, hj⟩).name ≠ col := by
  intro sch
  induction sch with
  | nil =>
    intro col i ty h
    simp [sortFieldLookup] at h
  | cons c rest ih =>
    intro col i ty h
    rw [sortFieldLookup] at h
    by_cases hc : c.name = col
    · simp only [hc] at h
      simp at h
      obtain ⟨hi, hty⟩ := h
      subst hi
      refine ⟨by simp, by simpa using hc, by simpa using hty, ?_⟩
      intro j hj hj0
      omega
    · rw [if_neg (by simpa using hc)] at h
      cases hl : sortFieldLookup rest col with
      | none => rw [hl] at h; cases h
      | some p =>
        obtain ⟨i0, ty0⟩ := p
        rw [hl] at h
        simp at h
        obtain ⟨hi, hty⟩ := h
        obtain ⟨hlen, hname, htype, hmin⟩ := ih col i0 ty0 hl
        subst hi
        refine ⟨by simpa using Nat.succ_lt_succ hlen, by simpa using hname,
          by simp; rw [List.get_eq_getElem] at htype; rw [htype]; exact hty, ?_⟩
        intro j hj hj0
        match j with
        | 0 => simpa using hc
        | j + 1 =>
          have hj2 : j < rest.length := by simpa using hj
          have := hmin j hj2 (by omega)
          simpa using this

/-- The collect loop of `NewSort` errors exactly when some sort field's
column fails to resolve, and on success returns one index and type per field,
each being that field's lookup result. -/
theorem newSortCollect_spec {α : Type} (sch : List (GqlColumn α)) :
    ∀ sfs : List SortField,
      ((∃ e, newSortCollect sch sfs = .error e) ↔
        ∃ sf ∈ sfs, sortFieldLookup sch sf.column = none)
      ∧ (∀ idxs tys, newSortCollect sch sfs = .ok (idxs, tys) →
          idxs.length = sfs.length ∧ tys.length = sfs.length ∧
          ∀ k sf, sfs.get? k = some sf →
            ∃ i ty, idxs.get? k = some i ∧ tys.get? k = some ty ∧
              sortFieldLookup sch sf.column = some (i, ty)) := by
  intro sfs
  induction sfs with
  | nil =>
    constructor
    · simp [newSortCollect]
    · intro idxs tys h
      simp [newSortCollect] at h
      obtain ⟨h1, h2⟩ := h
      subst h1
      subst h2
      simp
  | cons sf rest ih =>
    constructor
    · rw [newSortCollect]
      cases hl : sortFieldLookup sch sf.column with
      | none =>
        simp only []
        constructor
        · intro _
          exact ⟨sf, by simp, hl⟩
        · intro _
          exact ⟨_, rfl⟩
      | some p =>
        obtain ⟨i0, ty0⟩ := p
        simp only []
        cases hcoll : newSortCollect sch rest with
        | error e =>
          simp only []
          constructor
          · intro _
            obtain ⟨sf2, hmem, hnone⟩ := ih.1.mp ⟨e, hcoll⟩
            exact ⟨sf2, by simp [hmem], hnone⟩
          · intro _
            exact ⟨e, rfl⟩
        | ok p2 =>
          obtain ⟨idxs0, tys0⟩ := p2
          simp only []
          constructor
          · intro ⟨e, he⟩
            cases he
          · intro ⟨sf2, hmem, hnone⟩
            rcases List.mem_cons.mp hmem with heq | hmem2
            · subst heq
              rw [hl] at hnone
              cases hnone
            · obtain ⟨e, he⟩ := ih.1.mpr ⟨sf2, hmem2, hnone⟩
              rw [hcoll] at he
              cases he
    · intro idxs tys h
      rw [newSortCollect] at h
      cases hl : sortFieldLookup sch sf.column with
      | none => rw [hl] at h; cases h
      | some p =>
        obtain ⟨i0, ty0⟩ := p
        rw [hl] at h
        cases hcoll : newSortCollect sch rest with
        | error e => rw [hcoll] at h; cases h
        | ok p2 =>
          obtain ⟨idxs0, tys0⟩ := p2
          rw [hcoll] at h
          simp at h
          obtain ⟨hidx, hty⟩ := h
          obtain ⟨hl1, hl2, hres⟩ := ih.2 idxs0 tys0 hcoll
          subst hidx
          subst hty
          refine ⟨by simp [hl1], by simp [hl2], ?_⟩
          intro k sf2 hk
          match k with
          | 0 =>
            simp at hk
            subst hk
            exact ⟨i0, ty0, rfl, rfl, hl⟩
          | k + 1 =>
            simp at hk
            obtain ⟨i, ty, h1, h2, h3⟩ := hres k sf2 (by simpa using hk)
            exact ⟨i, ty, by simpa using h1, by simpa using h2, h3⟩

/-- C9: `NewSort` panics — embedded as the error case — exactly when some
requested sort column does not occur by name in the child schema; when every
column occurs, the constructed node stores the original sort fields and, for
each, the first matching schema index and that column's type. -/
theorem NewSort_panics_iff_missing {α : Type} (sfs : List SortField)
    (sch : List (GqlColumn α)) :
    ((∃ e, NewSort sfs sch = .error e) ↔ ∃ sf ∈ sfs, ∀ c ∈ sch, c.name ≠ sf.column)
      ∧ (∀ s, NewSort sfs sch = .ok s →
          s.sortFields = sfs ∧
          s.fieldIndexes.length = sfs.length ∧ s.fieldTypes.length = sfs.length ∧
          (∀ k sf, sfs.get? k = some sf →
            ∃ i ty, s.fieldIndexes.get? k = some i ∧ s.fieldTypes.get? k = some ty ∧
              ∃ hc : i < sch.length,
                (sch.get ⟨i, hc⟩).name = sf.column ∧ (sch.get ⟨i, hc⟩).type = ty ∧
                ∀ j, ∀ hj : j < sch.length, j < i →
                  (sch.get ⟨j, hj⟩).name ≠ sf.column)) := by
  constructor
  · rw [NewSort]
    cases hcoll : newSortCollect sch sfs with
    | error e =>
      simp only []
      constructor
      · intro _
        obtain ⟨sf, hmem, hnone⟩ := (newSortCollect_spec sch sfs).1.mp ⟨e, hcoll⟩
        exact ⟨sf, hmem, (sortFieldLookup_none_iff sch sf.column).mp hnone⟩
      · intro _
        exact ⟨e, rfl⟩
    | ok p =>
      obtain ⟨idxs, tys⟩ := p
      simp only []
      constructor
      · intro ⟨e, he⟩
        cases he
      · intro ⟨sf, hmem, hmiss⟩
        obtain ⟨e, he⟩ := (newSortCollect_spec sch sfs).1.mpr
          ⟨sf, hmem, (sortFieldLookup_none_iff sch sf.column).mpr hmiss⟩
        rw [hcoll] at he
        cases he
  · intro s hs
    rw [NewSort] at hs
    cases hcoll : newSortCollect sch sfs with
    | error e => rw [hcoll] at hs; cases hs
    | ok p =>
      obtain ⟨idxs, tys⟩ := p
      rw [hcoll] at hs
      simp at hs
      obtain ⟨hl1, hl2, hres⟩ := (newSortCollect_spec sch sfs).2 idxs tys hcoll
      refine ⟨by rw [← hs], by rw [← hs]; exact hl1, by rw [← hs]; exact hl2, ?_⟩
      intro k sf hk
      obtain ⟨i, ty, h1, h2, h3⟩ := hres k sf hk
      obtain ⟨hc, hname, htype, hmin⟩ := sortFieldLookup_some sch sf.column i ty h3
      exact ⟨i, ty, by rw [← hs]; exact h1, by rw [← hs]; exact h2, hc, hname, htype, hmin⟩

/-- C9 witness: on a two-column int schema, sorting by the second column
succeeds recording index 1 and its type, and sorting by a missing column
panics. -/
theorem NewSort_panics_iff_missing_witness :
    (∃ e, NewSort [⟨"zzz", .ascending⟩] ([⟨"a", intTy⟩] : List (GqlColumn Int)) = .error e)
      ∧ (∀ s, NewSort [⟨"b", .ascending⟩]
            ([⟨"a", intTy⟩, ⟨"b", intTy⟩] : List (GqlColumn Int)) = .ok s →
          s.sortFields = [⟨"b", .ascending⟩]) := by
  constructor
  · exact (NewSort_panics_iff_missing [⟨"zzz", .ascending⟩] [⟨"a", intTy⟩]).1.mpr
      ⟨⟨"zzz", .ascending⟩, by simp, by
        intro c hc
        rcases List.mem_singleton.mp hc with rfl
        decide⟩
  · intro s hs
    exact ((NewSort_panics_iff_missing [⟨"b", .ascending⟩]
      [⟨"a", intTy⟩, ⟨"b", intTy⟩]).2 s hs).1

/-! ## treeEntriesKeyValueIter discards the invalid-object error (C10) -/

/-- C10: when the object iterator yields an object that is not a tree, the
key-value iterator's `Next` does not return the constructed
`ErrInvalidObjectType` error (the source builds it at line 308 and drops it);
it continues with `i.tree == nil`, which the embedding surfaces as the
`nilTreePanic` answer of the nil-tree entries check. -/
theorem kvNext_discards_invalid_object (objs : List ObjIterStep)
    (columns : List String) (ip pos : Nat) (o : EncodedObject) (kind : String)
    (hobj : objIterAt objs ip = .obj o) (hkind : o.object = .other kind) :
    kvNext objs columns ⟨ip, none, pos⟩ = (⟨ip + 1, none, 0⟩, .nilTreePanic)
      ∧ ∀ e, (kvNext objs columns ⟨ip, none, pos⟩).2 ≠ .err e := by
  have h : kvNext objs columns ⟨ip, none, pos⟩ = (⟨ip + 1, none, 0⟩, .nilTreePanic) := by
    rw [kvNext]
    split
    · rename_i e heq
      rw [hobj] at heq
      cases heq
    · rename_i o2 heq
      rw [hobj] at heq
      cases heq
      rw [hkind]
  refine ⟨h, ?_⟩
  intro e
  rw [h]
  simp

/-- C10 witness: a concrete object stream yielding one commit object. -/
theorem kvNext_discards_invalid_object_witness :
    kvNext [.obj ⟨"r", "p", 0, .other "commit"⟩] [] ⟨0, none, 0⟩ =
        (⟨1, none, 0⟩, .nilTreePanic)
      ∧ ∀ e, (kvNext [.obj ⟨"r", "p", 0, .other "commit"⟩] [] ⟨0, none, 0⟩).2 ≠ .err e :=
  kvNext_discards_invalid_object [.obj ⟨"r", "p", 0, .other "commit"⟩] [] 0 0
    ⟨"r", "p", 0, .other "commit"⟩ "commit" rfl rfl
